import Mathlib

/-
Verification of the voice streaming framework's core components:
the sentence aggregator, the audio chunk queue, the chunk delivery
tracker, the WebRTC TTS audio track, and the session layer's
interrupt handler.  Each definition is a shallow embedding of the
corresponding Python source in
backend/lib/voice_streaming_framework/.
-/

/-! ## Sentence aggregator
Embedding of text/sentence_aggregator.py.  Strings are modelled as
lists of characters (Python `str` indices are code points, as are
`List Char` positions).  The regular expressions are embedded as
executable scanners over the character list.  Wall-clock logging is
omitted.  -/

namespace SentenceAggregator

/-- Python `\s` for the ASCII range: space, tab, newline, carriage
return, vertical tab, form feed. -/
def pyIsSpace (c : Char) : Bool :=
  c = ' ' || c = '\t' || c = '\n' || c = '\r' || c = '\x0b' || c = '\x0c'

/-- The default `sentence_endings` character class `[.!?。！？]`. -/
def isSentenceEnding (c : Char) : Bool :=
  c = '.' || c = '!' || c = '?' || c = '。' || c = '！' || c = '？'

/-- The default `soft_breaks` character class `[,;，；：:]`. -/
def isSoftBreak (c : Char) : Bool :=
  c = ',' || c = ';' || c = '，' || c = '；' || c = '：' || c = ':'

/-- `re.finditer` of the pattern `[class]\s*` over the buffer: the end
positions of the non-overlapping, left-to-right matches.  `inMatch`
records that a match is open whose end so far is the current
position (its trailing `\s*` is still being extended greedily). -/
def matchEnds (isEnd : Char → Bool) : Bool → List Char → Nat → List Nat
  | false, [], _ => []
  | true, [], pos => [pos]
  | false, c :: rest, pos =>
    if isEnd c then matchEnds isEnd true rest (pos + 1)
    else matchEnds isEnd false rest (pos + 1)
  | true, c :: rest, pos =>
    if pyIsSpace c then matchEnds isEnd true rest (pos + 1)
    else if isEnd c then pos :: matchEnds isEnd true rest (pos + 1)
    else pos :: matchEnds isEnd false rest (pos + 1)

/-- Python `str.rstrip()`. -/
def rstrip (l : List Char) : List Char :=
  (l.reverse.dropWhile pyIsSpace).reverse

/-- Python `str.lstrip()`. -/
def lstrip (l : List Char) : List Char :=
  l.dropWhile pyIsSpace

/-- Python `str.strip()`. -/
def pyStrip (l : List Char) : List Char :=
  lstrip (rstrip l)

/-- The alternatives of the `ABBREVIATIONS` pattern
`\b(Mr|Mrs|Ms|Dr|Prof|Sr|Jr|vs|etc|e\.g|i\.e|Inc|Ltd|Corp)\.$`. -/
def abbreviationList : List (List Char) :=
  ["Mr", "Mrs", "Ms", "Dr", "Prof", "Sr", "Jr", "vs", "etc",
   "e.g", "i.e", "Inc", "Ltd", "Corp"].map String.toList

/-- A regex word character (`\w`) in the ASCII range. -/
def isWordChar (c : Char) : Bool :=
  c.isAlpha || c.isDigit || c = '_'

def toLowerL (l : List Char) : List Char := l.map Char.toLower

/-- `ABBREVIATIONS.search(text)`: the text ends with one of the
abbreviations followed by a dot (case-insensitively, the pattern is
compiled with `re.IGNORECASE`), with a word boundary `\b` before the
abbreviation. -/
def abbreviationAtEnd (text : List Char) : Bool :=
  abbreviationList.any fun ab =>
    let pat := toLowerL ab ++ ['.']
    pat.isSuffixOf (toLowerL text) &&
      (let p := text.length - pat.length
       decide (p = 0) || !isWordChar (text.getD (p - 1) ' '))

/-- `DECIMAL_NUMBER.search(text)` for the pattern `\d\.$`. -/
def decimalAtEnd (text : List Char) : Bool :=
  match text.reverse with
  | '.' :: d :: _ => d.isDigit
  | _ => false

/-- `URL_PATTERN.search(text)` for the pattern `https?://\S+$`: some
suffix of the text starts with `http://` or `https://` and runs to the
end with at least one following character and no whitespace. -/
def urlAtEnd (text : List Char) : Bool :=
  (List.range text.length).any fun i =>
    let t := text.drop i
    ("http://".toList.isPrefixOf t &&
       decide (7 < t.length) && (t.drop 7).all (fun c => !pyIsSpace c)) ||
    ("https://".toList.isPrefixOf t &&
       decide (8 < t.length) && (t.drop 8).all (fun c => !pyIsSpace c))

/-- `SentenceAggregator._is_false_ending`. -/
def is_false_ending (text : List Char) (matchEnd : Nat) : Bool :=
  let text_before := rstrip (text.take matchEnd)
  abbreviationAtEnd text_before || decimalAtEnd text_before ||
    urlAtEnd text_before

/-- `AggregatorConfig` (the `sentence_endings` and `soft_breaks`
pattern strings are fixed at their defaults, embedded as
`isSentenceEnding` and `isSoftBreak`). -/
structure AggregatorConfig where
  min_chars : Nat := 15
  max_wait_chars : Nat := 200
  strip_whitespace : Bool := true
deriving DecidableEq, Repr

/-- `SentenceAggregator._find_sentence_boundary`: the first match end
that is not a false positive and meets the minimum length. -/
def find_sentence_boundary (cfg : AggregatorConfig) (buf : List Char) :
    Option Nat :=
  (matchEnds isSentenceEnding false buf 0).find? fun e =>
    !is_false_ending buf e && decide (cfg.min_chars ≤ e)

/-- `SentenceAggregator._find_soft_boundary`. -/
def find_soft_boundary (cfg : AggregatorConfig) (buf : List Char) :
    Option Nat :=
  (matchEnds isSoftBreak false buf 0).find? fun e =>
    decide (cfg.min_chars ≤ e)

/-- Python truthiness of the `boundary` value: `None` and `0` are
falsy. -/
def truthy : Option Nat → Bool
  | some n => n != 0
  | none => false

/-- One `sentence = self.buffer[:boundary]` / `self.buffer =
self.buffer[boundary:]` step, with optional stripping; the first
component is the sentence to yield, if non-empty. -/
def emitChunk (cfg : AggregatorConfig) (buf : List Char) (b : Nat) :
    Option (List Char) × List Char :=
  let sentence := buf.take b
  let rest := buf.drop b
  let out := if cfg.strip_whitespace then pyStrip sentence else sentence
  (if out.isEmpty then none else some out, rest)

/-- The inner `while True` loop of `process_stream` / `add_token`.
Every taken boundary removes at least one character from the buffer,
so the loop runs at most `buf.length` times; the fuel argument is
instantiated with `buf.length` in `drainBuffer` and is therefore never
exhausted. -/
def drainLoop (cfg : AggregatorConfig) : Nat → List Char →
    List (List Char) × List Char
  | 0, buf => ([], buf)
  | fuel + 1, buf =>
    let boundary := find_sentence_boundary cfg buf
    if truthy boundary then
      let (out, rest) := emitChunk cfg buf (boundary.getD 0)
      let (ss, fin) := drainLoop cfg fuel rest
      ((match out with | some o => o :: ss | none => ss), fin)
    else if cfg.max_wait_chars < buf.length then
      let soft := find_soft_boundary cfg buf
      if truthy soft then
        let (out, rest) := emitChunk cfg buf (soft.getD 0)
        let (ss, fin) := drainLoop cfg fuel rest
        ((match out with | some o => o :: ss | none => ss), fin)
      else ([], buf)
    else ([], buf)

def drainBuffer (cfg : AggregatorConfig) (buf : List Char) :
    List (List Char) × List Char :=
  drainLoop cfg buf.length buf

/-- One iteration of the `async for token in token_stream` loop:
append the token to the buffer and yield all complete sentences. -/
def processToken (cfg : AggregatorConfig)
    (acc : List (List Char) × List Char) (tok : List Char) :
    List (List Char) × List Char :=
  let buf := acc.2 ++ tok
  let (ss, fin) := drainBuffer cfg buf
  (acc.1 ++ ss, fin)

/-- `SentenceAggregator.process_stream`, started on an aggregator
whose buffer currently holds `buffer`: the method first calls
`self.reset()` (clearing the buffer), consumes the whole token
stream, and finally yields any stripped remainder. -/
def process_stream (cfg : AggregatorConfig) (buffer : List Char)
    (tokens : List (List Char)) : List (List Char) :=
  let buffer := ([] : List Char)
  let (ss, fin) := tokens.foldl (processToken cfg) ([], buffer)
  if fin.isEmpty then ss
  else
    let remaining := if cfg.strip_whitespace then pyStrip fin else fin
    if remaining.isEmpty then ss else ss ++ [remaining]

/-- `process_stream` on ordinary strings. -/
def process_stream_str (cfg : AggregatorConfig) (buffer : String)
    (tokens : List String) : List String :=
  (process_stream cfg buffer.toList (tokens.map String.toList)).map
    List.asString

end SentenceAggregator

/-! ## Real-time transport track
Embedding of webrtc/tracks.py (`TTSAudioTrack`).  Audio bytes are
modelled as natural numbers, the frame queue as a list whose `none`
element is the flush sentinel.  Wall-clock pacing sleeps and logging
are elided; `recv` returning `none` models the coroutine suspending on
`await self.audio_queue.get()` with an empty queue. -/

namespace TTSAudioTrack

def samples_per_frame : Nat := 960
def bytes_per_sample : Nat := 2
def bytes_per_frame : Nat := samples_per_frame * bytes_per_sample

/-- An `av.AudioFrame` as produced by `_create_audio_frame`: its
payload bytes, presentation timestamp and sample rate. -/
structure AudioFrameM where
  payload : List Nat
  pts : Nat
  sample_rate : Nat
deriving DecidableEq, Repr

/-- The state of a `TTSAudioTrack`: the byte buffer, the frame queue
(`none` entries are the flush sentinel), the pts counter and the
backpressure counters.  The float `_total_wait_time` accumulator is
wall-clock time and is not modelled. -/
structure TrackState where
  buffer : List Nat := []
  audio_queue : List (Option (List Nat)) := []
  pts : Nat := 0
  total_chunks_pushed : Nat := 0
  backpressure_count : Nat := 0
deriving DecidableEq, Repr

/-- The defensive pad/truncate step of `_create_audio_frame`: a
payload of the wrong size is zero-padded or truncated to exactly
`bytes_per_frame` bytes. -/
def createFramePayload (pcm_data : List Nat) : List Nat :=
  if pcm_data.length ≠ bytes_per_frame then
    if pcm_data.length < bytes_per_frame then
      pcm_data ++ List.replicate (bytes_per_frame - pcm_data.length) 0
    else
      pcm_data.take bytes_per_frame
  else pcm_data

/-- `TTSAudioTrack._create_audio_frame`: build the frame and advance
`self.pts` by the frame's samples. -/
def create_audio_frame (pts : Nat) (pcm_data : List Nat) :
    AudioFrameM × Nat :=
  (⟨createFramePayload pcm_data, pts, 48000⟩, pts + samples_per_frame)

/-- `TTSAudioTrack.flush`: clear the byte buffer, drain the queue,
inject the `None` sentinel so a blocked `recv()` wakes, and reset the
backpressure counters. -/
def flush (st : TrackState) : TrackState :=
  { st with buffer := [], audio_queue := [none],
            total_chunks_pushed := 0, backpressure_count := 0 }

/-- The loop of `TTSAudioTrack.recv`, reading from the queue until a
full frame can be assembled.  Result `none` means the coroutine
suspends on the empty queue; `some` carries the returned frame and the
remaining buffer, queue and pts (pacing against wall-clock time is
elided). -/
def recvLoop (pts : Nat) (buffer : List Nat) :
    List (Option (List Nat)) →
    Option (AudioFrameM × List Nat × List (Option (List Nat)) × Nat)
  | [] =>
    if bytes_per_frame ≤ buffer.length then
      let (frame, pts') := create_audio_frame pts (buffer.take bytes_per_frame)
      some (frame, buffer.drop bytes_per_frame, [], pts')
    else none
  | item :: rest =>
    if bytes_per_frame ≤ buffer.length then
      let (frame, pts') := create_audio_frame pts (buffer.take bytes_per_frame)
      some (frame, buffer.drop bytes_per_frame, item :: rest, pts')
    else
      match item with
      | none =>
        if 0 < buffer.length then
          recvLoop pts
            (buffer ++ List.replicate (bytes_per_frame - buffer.length) 0) rest
        else
          recvLoop pts (List.replicate bytes_per_frame 0) rest
      | some new_data => recvLoop pts (buffer ++ new_data) rest

/-- `TTSAudioTrack.recv` on a track state. -/
def recv (st : TrackState) : Option (AudioFrameM × TrackState) :=
  (recvLoop st.pts st.buffer st.audio_queue).map fun r =>
    (r.1, { st with buffer := r.2.1, audio_queue := r.2.2.1, pts := r.2.2.2 })

/-- A full frame of silence. -/
def silenceFrame : List Nat := List.replicate bytes_per_frame 0

end TTSAudioTrack

/-! ## Session layer interrupt protocol
Embedding of `VoiceSessionManager.handle_interrupt`
(server/voice_session_manager.py) together with
`WebRTCManager.replace_audio_track` (webrtc/manager.py).  The handler
is straight-line async code; it is embedded as the sequence of
externally visible actions it performs, as a function of which
per-session resources exist when the interrupt arrives.  Exception
paths and wall-clock latency measurement are elided. -/

namespace VoiceSessionManager

/-- Which per-session resources exist when `handle_interrupt` runs:
whether the session id is in `session_data`, whether an
`on_interruption` callback is registered, whether `tts_streaming_tasks`
holds a task (and whether it is already done), whether
`ffmpeg_processes` holds a process (and whether its returncode is
still `None`), whether a `webrtc_manager_factory` is configured and
whether the WebRTC manager has a track for the session. -/
structure InterruptContext where
  in_session_data : Bool
  has_callback : Bool
  tts_task : Option Bool
  ffmpeg_running : Option Bool
  has_webrtc_factory : Bool
  has_track : Bool
deriving DecidableEq, Repr

/-- The externally visible steps of `handle_interrupt`. -/
inductive InterruptStep where
  | bumpInterruptionCount
  | invokeCallback
  | setStopFlag
  | cancelTTSTask
  | awaitTTSTask
  | popTTSTask
  | terminateFFmpeg
  | flushTrack
  | replaceTrack
  | sendVoiceInterrupted
deriving DecidableEq, Repr

/-- `VoiceSessionManager.handle_interrupt`: the sequence of steps the
handler performs, in source order. -/
def handle_interrupt (ctx : InterruptContext) : List InterruptStep :=
  (if ctx.in_session_data then [InterruptStep.bumpInterruptionCount] else [])
  ++ (if ctx.has_callback then [InterruptStep.invokeCallback] else [])
  ++ [InterruptStep.setStopFlag]
  ++ (match ctx.tts_task with
      | some done =>
        (if !done then [InterruptStep.cancelTTSTask, InterruptStep.awaitTTSTask]
         else []) ++ [InterruptStep.popTTSTask]
      | none => [])
  ++ (match ctx.ffmpeg_running with
      | some running => if running then [InterruptStep.terminateFFmpeg] else []
      | none => [])
  ++ (if ctx.has_webrtc_factory && ctx.has_track then
        [InterruptStep.flushTrack, InterruptStep.replaceTrack]
      else [])
  ++ [InterruptStep.sendVoiceInterrupted]

end VoiceSessionManager

/-! ## Bounded audio chunk queue
Embedding of audio/chunk_queue.py (`AudioChunkQueue`).  `put` suspends
twice (on the lock around the capacity check and on
`space_available.wait()`), so a `put` call is modelled as a small
state machine advanced by scheduler actions; `get` and `clear` hold
the lock for their whole body and are atomic.  Queue entries are
modelled by their `chunk_index` (the chunk bytes and the wall-clock
`enqueue_time`, used only for the latency metric, are elided, as is
the float `avg_latency_ms` EMA).  `deque(maxlen=max_size)` semantics:
appending to a full deque silently discards the leftmost element. -/

namespace AudioChunkQueue

structure QueueConfig where
  max_size : Nat := 100
  enable_metrics : Bool := true
deriving DecidableEq, Repr

/-- The integer fields of `QueueMetrics`. -/
structure QueueMetricsM where
  total_enqueued : Nat := 0
  total_dequeued : Nat := 0
  total_dropped : Nat := 0
  backpressure_events : Nat := 0
  current_size : Nat := 0
  max_size_reached : Nat := 0
deriving DecidableEq, Repr

/-- Phases of one in-flight `put` coroutine: `entry` (about to run the
capacity check under the lock), `waiting` (suspended in
`asyncio.wait_for(space_available.wait(), timeout)`), `ready` (the
wait returned, about to re-acquire the lock and append), `finished`
(returned, with the boolean result). -/
inductive PutPhase where
  | entry
  | waiting
  | ready
  | finished (result : Bool)
deriving DecidableEq, Repr

structure PutTask where
  chunk_index : Nat
  phase : PutPhase
deriving DecidableEq, Repr

/-- The whole system: one queue plus its in-flight `put` calls.
`dequeued` records the chunk indices returned by `get` and `clears`
counts `clear()` calls, so that traces can speak about which chunks
were removed legitimately. -/
structure QueueSystem where
  queue : List Nat := []
  space_available : Bool := true
  metrics : QueueMetricsM := {}
  tasks : List PutTask := []
  dequeued : List Nat := []
  clears : Nat := 0
deriving DecidableEq, Repr

/-- `collections.deque(maxlen).append`: keep only the last `maxlen`
elements. -/
def dequeAppend (maxlen : Nat) (q : List Nat) (x : Nat) : List Nat :=
  let q' := q ++ [x]
  q'.drop (q'.length - maxlen)

/-- Scheduler actions: spawn a new `put(idx, ...)` call, advance one
`put` through its next atomic section, let a waiting `put` time out,
or run an atomic `get()` / `clear()`. -/
inductive QAction where
  | spawn (idx : Nat)
  | stepCheck (tid : Nat)
  | wake (tid : Nat)
  | stepAppend (tid : Nat)
  | timeoutPut (tid : Nat)
  | doGet
  | doClear
deriving DecidableEq, Repr

/-- One scheduler step.  An action whose task is not in the required
phase (or whose wait/timeout condition does not hold) is a no-op.
`wake` fires only while `space_available` is set (that is when
`space_available.wait()` returns); `timeoutPut` fires only while it is
clear (`wait_for` can only raise `TimeoutError` while the event is
unset). -/
def step (cfg : QueueConfig) (s : QueueSystem) : QAction → QueueSystem
  | QAction.spawn idx =>
    { s with tasks := s.tasks ++ [⟨idx, PutPhase.entry⟩] }
  | QAction.stepCheck tid =>
    match s.tasks.get? tid with
    | some ⟨idx, PutPhase.entry⟩ =>
      let s :=
        if cfg.max_size ≤ s.queue.length then
          { s with space_available := false,
                   metrics :=
                     if cfg.enable_metrics then
                       { s.metrics with backpressure_events :=
                           s.metrics.backpressure_events + 1 }
                     else s.metrics }
        else s
      { s with tasks := s.tasks.set tid ⟨idx, PutPhase.waiting⟩ }
    | _ => s
  | QAction.wake tid =>
    match s.tasks.get? tid with
    | some ⟨idx, PutPhase.waiting⟩ =>
      if s.space_available then
        { s with tasks := s.tasks.set tid ⟨idx, PutPhase.ready⟩ }
      else s
    | _ => s
  | QAction.stepAppend tid =>
    match s.tasks.get? tid with
    | some ⟨idx, PutPhase.ready⟩ =>
      let q := dequeAppend cfg.max_size s.queue idx
      { s with queue := q,
               metrics :=
                 if cfg.enable_metrics then
                   { s.metrics with
                       total_enqueued := s.metrics.total_enqueued + 1,
                       current_size := q.length,
                       max_size_reached :=
                         max s.metrics.max_size_reached q.length }
                 else s.metrics,
               tasks := s.tasks.set tid ⟨idx, PutPhase.finished true⟩ }
    | _ => s
  | QAction.timeoutPut tid =>
    match s.tasks.get? tid with
    | some ⟨idx, PutPhase.waiting⟩ =>
      if s.space_available then s
      else
        { s with metrics :=
                   if cfg.enable_metrics then
                     { s.metrics with total_dropped :=
                         s.metrics.total_dropped + 1 }
                   else s.metrics,
                 tasks := s.tasks.set tid ⟨idx, PutPhase.finished false⟩ }
    | _ => s
  | QAction.doGet =>
    match s.queue with
    | [] => s
    | x :: rest =>
      { s with queue := rest,
               metrics :=
                 if cfg.enable_metrics then
                   { s.metrics with
                       total_dequeued := s.metrics.total_dequeued + 1,
                       current_size := rest.length }
                 else s.metrics,
               space_available :=
                 if rest.length < cfg.max_size then true
                 else s.space_available,
               dequeued := s.dequeued ++ [x] }
  | QAction.doClear =>
    { s with queue := [],
             space_available := true,
             metrics :=
               if cfg.enable_metrics then
                 { s.metrics with total_dropped :=
                     s.metrics.total_dropped + s.queue.length }
               else s.metrics,
             clears := s.clears + 1 }

/-- Run a trace of scheduler actions from a start state. -/
def runFrom (cfg : QueueConfig) (s : QueueSystem) (acts : List QAction) :
    QueueSystem :=
  acts.foldl (step cfg) s

/-- Run a trace from the freshly constructed queue. -/
def run (cfg : QueueConfig) (acts : List QAction) : QueueSystem :=
  runFrom cfg {} acts

/-- A complete, uncontended `put(i)`: check, wake (the event is set),
append. -/
def putActs (tid idx : Nat) : List QAction :=
  [QAction.spawn idx, QAction.stepCheck tid, QAction.wake tid,
   QAction.stepAppend tid]

/-- The racy trace refuting the no-overwrite half of the claim, at the
default capacity 100: fill the queue with puts 0..99; puts 100 and 101
block on the full queue; one `get` frees a slot and sets the event;
both blocked puts wake and append in turn, and the second append hits
the full `deque(maxlen=100)`, which silently evicts chunk 1 — an entry
that was enqueued and never dequeued or cleared. -/
def overwriteTrace : List QAction :=
  ((List.range 100).map (fun i => putActs i i)).flatten
  ++ [QAction.spawn 100, QAction.spawn 101,
      QAction.stepCheck 100, QAction.stepCheck 101,
      QAction.doGet,
      QAction.wake 100, QAction.wake 101,
      QAction.stepAppend 100, QAction.stepAppend 101]

/-- A queue at the default capacity (100 stored entries) with one
`put` of chunk 7 about to run its capacity check. -/
def fullQueueState : QueueSystem :=
  { queue := List.range 100, tasks := [⟨7, PutPhase.entry⟩] }

end AudioChunkQueue

/-! ## Chunk delivery tracker
Embedding of audio/chunk_tracker.py (`ChunkTracker`).  The insertion
ordered Python dict `sent_chunks` is modelled as an association list
with the usual dict operations (assignment replaces an existing key in
place and appends a fresh key; `del` removes the key).  `time.time()`
values are rationals supplied explicitly to each operation. -/

namespace ChunkTracker

structure TrackerConfig where
  ack_timeout : Rat := 5
  max_tracked_chunks : Nat := 1000
deriving DecidableEq, Repr

/-- `ChunkInfo`. -/
structure ChunkInfo where
  chunk_index : Nat
  sent_time : Rat
  size_bytes : Nat
  acked : Bool := false
  ack_time : Option Rat := none
deriving DecidableEq, Repr

/-- The mutable state of one `ChunkTracker`. -/
structure TrackerState where
  sent_chunks : List (Nat × ChunkInfo) := []
  total_sent : Nat := 0
  total_acked : Nat := 0
  total_missing : Nat := 0
  ack_latencies : List Rat := []
  max_ack_latency : Rat := 0
deriving DecidableEq, Repr

/-- Python `d[k]` lookup (`k in d` is `(dictGet d k).isSome`). -/
def dictGet : List (Nat × ChunkInfo) → Nat → Option ChunkInfo
  | [], _ => none
  | (k, v) :: rest, i => if k = i then some v else dictGet rest i

/-- Python `d[k] = v`: replace in place, or append a fresh key. -/
def dictSet : List (Nat × ChunkInfo) → Nat → ChunkInfo →
    List (Nat × ChunkInfo)
  | [], k, v => [(k, v)]
  | (k', v') :: rest, k, v =>
    if k' = k then (k, v) :: rest else (k', v') :: dictSet rest k v

/-- Python `del d[k]` (keys are unique in a dict, so removing the
first occurrence is removal of the key). -/
def dictDel : List (Nat × ChunkInfo) → Nat → List (Nat × ChunkInfo)
  | [], _ => []
  | (k', v') :: rest, k =>
    if k' = k then rest else (k', v') :: dictDel rest k

/-- `min(iterable, default=None)` over natural numbers. -/
def minNat : Option Nat → List Nat → Option Nat
  | acc, [] => acc
  | none, x :: rest => minNat (some x) rest
  | some m, x :: rest => minNat (some (min m x)) rest

/-- The generator `(idx for idx, info in self.sent_chunks.items() if
not info.acked)` in `mark_sent`, in iteration order. -/
def unackedKeys (l : List (Nat × ChunkInfo)) : List Nat :=
  (l.filter fun p => !p.2.acked).map Prod.fst

/-- `min((... unacked ...), default=None)`. -/
def minUnacked (l : List (Nat × ChunkInfo)) : Option Nat :=
  minNat none (unackedKeys l)

/-- `ChunkTracker.mark_sent(chunk_index, chunk_size)` at time `now`. -/
def mark_sent (cfg : TrackerConfig) (s : TrackerState)
    (chunk_index chunk_size : Nat) (now : Rat) : TrackerState :=
  let s :=
    if cfg.max_tracked_chunks ≤ s.sent_chunks.length then
      match minUnacked s.sent_chunks with
      | some oldest =>
        { s with sent_chunks := dictDel s.sent_chunks oldest,
                 total_missing := s.total_missing + 1 }
      | none => s
    else s
  { s with
      sent_chunks :=
        dictSet s.sent_chunks chunk_index
          ⟨chunk_index, now, chunk_size, false, none⟩,
      total_sent := s.total_sent + 1 }

/-- `ChunkTracker.mark_acknowledged(chunk_index)` at time `now`;
returns the boolean result together with the new state. -/
def mark_acknowledged (s : TrackerState) (chunk_index : Nat)
    (now : Rat) : Bool × TrackerState :=
  match dictGet s.sent_chunks chunk_index with
  | none => (false, s)
  | some info =>
    if info.acked then (true, s)
    else
      let info' := { info with acked := true, ack_time := some now }
      let latency_ms := (now - info.sent_time) * 1000
      let lats := s.ack_latencies ++ [latency_ms]
      let lats := if 100 < lats.length then lats.drop 1 else lats
      (true,
       { s with
           sent_chunks := dictSet s.sent_chunks chunk_index info',
           total_acked := s.total_acked + 1,
           ack_latencies := lats,
           max_ack_latency := max s.max_ack_latency latency_ms })

/-- Insertion into a sorted list, for `sorted(missing)`. -/
def insertSorted (x : Nat) : List Nat → List Nat
  | [] => [x]
  | y :: rest => if x ≤ y then x :: y :: rest else y :: insertSorted x rest

/-- `sorted` on a list of naturals (insertion sort). -/
def sortNat (l : List Nat) : List Nat := l.foldr insertSorted []

/-- `ChunkTracker.get_missing_chunks()` at time `now`: sent chunks
not acknowledged whose age strictly exceeds `ack_timeout`, sorted. -/
def get_missing_chunks (cfg : TrackerConfig) (s : TrackerState)
    (now : Rat) : List Nat :=
  sortNat (((s.sent_chunks.filter fun p =>
    !p.2.acked && decide (cfg.ack_timeout < now - p.2.sent_time))).map
      Prod.fst)

/-- `ChunkTracker.cleanup_old_chunks()` at time `now`: drop chunks
acknowledged more than 60 seconds ago. -/
def cleanup_old_chunks (s : TrackerState) (now : Rat) : TrackerState :=
  { s with sent_chunks :=
      s.sent_chunks.filter fun p =>
        !(p.2.acked && (p.2.ack_time.map fun t =>
            decide (t < now - 60)).getD false) }

/-- One call in a `mark_sent` / `mark_acknowledged` /
`cleanup_old_chunks` call sequence, with its wall-clock time. -/
inductive TrackerOp where
  | msent (idx size : Nat) (now : Rat)
  | mack (idx : Nat) (now : Rat)
  | mcleanup (now : Rat)
deriving DecidableEq, Repr

def applyOp (cfg : TrackerConfig) (s : TrackerState) : TrackerOp →
    TrackerState
  | TrackerOp.msent idx size now => mark_sent cfg s idx size now
  | TrackerOp.mack idx now => (mark_acknowledged s idx now).2
  | TrackerOp.mcleanup now => cleanup_old_chunks s now

def runOpsFrom (cfg : TrackerConfig) (s : TrackerState)
    (ops : List TrackerOp) : TrackerState :=
  ops.foldl (applyOp cfg) s

def runOps (cfg : TrackerConfig) (ops : List TrackerOp) : TrackerState :=
  runOpsFrom cfg {} ops

/-- The chunk index a `mark_sent` op carries, if any. -/
def sentIndex : TrackerOp → Option Nat
  | TrackerOp.msent idx _ _ => some idx
  | _ => none

/-- The keys of the `sent_chunks` dict. -/
def keys (l : List (Nat × ChunkInfo)) : List Nat := l.map Prod.fst

/-- The first `n` send/acknowledge pairs of the call sequence
refuting the capacity bound: send chunk `i`, then acknowledge it, for
`i = 0..n-1` (all at time 0). -/
def ackedPairs (n : Nat) : List TrackerOp :=
  ((List.range n).map fun i =>
    [TrackerOp.msent i 0 0, TrackerOp.mack i 0]).flatten

/-- The call sequence refuting the capacity bound at the default
configuration (`max_tracked_chunks = 1000`): send and acknowledge
chunks 0..999, then send chunk 1000.  The eviction scan finds no
unacknowledged entry (`min(..., default=None)` is `None`), so nothing
is evicted and the store grows to 1001 entries. -/
def overflowOps : List TrackerOp :=
  ackedPairs 1000 ++ [TrackerOp.msent 1000 0 0]

/-- The entry that send/ack at time 0 leaves in the store. -/
def ackedEntry (i : Nat) : Nat × ChunkInfo :=
  (i, ⟨i, 0, 0, true, some 0⟩)

/-- A tracker at a capacity of 2 holding one unacknowledged chunk (0)
and one acknowledged chunk (1). -/
def twoTrackedState : TrackerState :=
  { sent_chunks := [(0, ⟨0, 0, 4, false, none⟩), (1, ⟨1, 0, 4, true, some 1⟩)] }

end ChunkTracker

/-! ## Theorems -/

open SentenceAggregator TTSAudioTrack VoiceSessionManager
open AudioChunkQueue ChunkTracker

/-- C1, counterexample: fed the token stream
`["I", " think", ".", " Therefore", " I", " am", "."]` under the
default configuration, `process_stream` does *not* yield the two
sentences `"I think."` and `"Therefore I am."`: the boundary after
`"I think. "` ends at position 9, below `min_chars = 15`, so the
first sentence is not split off. -/
theorem c1_counterexample :
    process_stream_str {} ""
        ["I", " think", ".", " Therefore", " I", " am", "."] ≠
      ["I think.", "Therefore I am."] := by decide

/-- C1, amended: under the default configuration the stream yields
exactly the single sentence `"I think. Therefore I am."`. -/
theorem c1_theorem :
    process_stream_str {} ""
        ["I", " think", ".", " Therefore", " I", " am", "."] =
      ["I think. Therefore I am."] := by decide

/-- C10: `process_stream` clears the buffer (`self.reset()`) before
reading any token, so runs over the same token stream from different
residual buffer states yield identical sentence sequences. -/
theorem c10_theorem (cfg : AggregatorConfig) (b1 b2 : List Char)
    (tokens : List (List Char)) :
    process_stream cfg b1 tokens = process_stream cfg b2 tokens := rfl

/-- C9: frame creation is total over the payload length: the produced
frame's payload always has exactly `bytes_per_frame = 1920` bytes, a
short payload being zero-padded and a long one truncated. -/
theorem c9_theorem (pts : Nat) (pcm_data : List Nat) :
    ((create_audio_frame pts pcm_data).1.payload.length =
        bytes_per_frame) ∧
      (create_audio_frame pts pcm_data).1.payload =
        pcm_data.take bytes_per_frame ++
          List.replicate (bytes_per_frame - pcm_data.length) 0 := by
  by_cases h : pcm_data.length = bytes_per_frame
  · have ht := List.take_of_length_le (le_of_eq h)
    constructor
    · simp [create_audio_frame, createFramePayload, h]
    · simp [create_audio_frame, createFramePayload, h, ht]
  · by_cases h2 : pcm_data.length < bytes_per_frame
    · have ht := List.take_of_length_le (Nat.le_of_lt h2)
      constructor
      · simp [create_audio_frame, createFramePayload, h, h2]
        omega
      · simp [create_audio_frame, createFramePayload, h, h2, ht]
    · have h3 : bytes_per_frame - pcm_data.length = 0 := by omega
      constructor
      · simp [create_audio_frame, createFramePayload, h, h2]
        omega
      · simp [create_audio_frame, createFramePayload, h, h2, h3]

/-- C8: if `recv()` is blocked on the empty internal queue (`recv`
suspends, modelled as result `none`), a `flush()` injects the `None`
sentinel, after which `recv()` immediately returns a full frame of
silence rather than hanging. -/
theorem recvLoop_queue_nil (pts : Nat) (buffer : List Nat)
    (h : bytes_per_frame ≤ buffer.length) :
    recvLoop pts buffer [] =
      some (⟨createFramePayload (buffer.take bytes_per_frame), pts, 48000⟩,
        buffer.drop bytes_per_frame, [], pts + samples_per_frame) := by
  simp only [recvLoop, create_audio_frame]
  rw [if_pos h]

theorem recvLoop_sentinel_empty (pts : Nat)
    (rest : List (Option (List Nat))) :
    recvLoop pts [] (none :: rest) =
      recvLoop pts (List.replicate bytes_per_frame 0) rest := by
  simp only [recvLoop]
  rw [if_neg (by decide), if_neg (by decide)]

theorem c8_theorem (st : TrackState) (h : recv st = none) :
    recv (flush st) =
      some (⟨silenceFrame, st.pts, 48000⟩,
        { buffer := [], audio_queue := [], pts := st.pts + samples_per_frame,
          total_chunks_pushed := 0, backpressure_count := 0 }) := by
  show (recvLoop st.pts [] [none]).map _ = _
  rw [recvLoop_sentinel_empty, recvLoop_queue_nil st.pts _ (by simp)]
  simp [createFramePayload, silenceFrame, List.take_replicate,
    List.drop_replicate, flush]

/-- C8 witness: a track in its initial state has a blocked `recv`,
and after `flush` the `recv` returns the silence frame. -/
theorem c8_witness :
    recv ({} : TrackState) = none ∧
      recv (flush ({} : TrackState)) =
        some (⟨silenceFrame, 0, 48000⟩,
          { buffer := [], audio_queue := [], pts := samples_per_frame,
            total_chunks_pushed := 0, backpressure_count := 0 }) := by
  refine ⟨rfl, ?_⟩
  have h := c8_theorem ({} : TrackState) rfl
  simpa using h

/-- C4: for every interrupt, the handler sends exactly one
`voice_interrupted` message, and when the per-session TTS task (not
yet done), FFmpeg process (still running) and WebRTC track all exist,
its step sequence is exactly: set the stop flag, cancel and await the
TTS task (then drop it from the registry), terminate the FFmpeg
process, flush and replace the track, and finally send
`voice_interrupted`. -/
theorem c4_theorem (ctx : InterruptContext) :
    ((handle_interrupt ctx).count InterruptStep.sendVoiceInterrupted = 1) ∧
      (ctx.tts_task = some false → ctx.ffmpeg_running = some true →
        ctx.has_webrtc_factory = true → ctx.has_track = true →
        handle_interrupt ctx =
          (if ctx.in_session_data then [InterruptStep.bumpInterruptionCount]
           else []) ++
          (if ctx.has_callback then [InterruptStep.invokeCallback] else []) ++
          [InterruptStep.setStopFlag, InterruptStep.cancelTTSTask,
           InterruptStep.awaitTTSTask, InterruptStep.popTTSTask,
           InterruptStep.terminateFFmpeg, InterruptStep.flushTrack,
           InterruptStep.replaceTrack, InterruptStep.sendVoiceInterrupted]) := by
  obtain ⟨a, b, c, d, e, f⟩ := ctx
  rcases c with _ | (_ | _) <;> rcases d with _ | (_ | _) <;>
    cases a <;> cases b <;> cases e <;> cases f <;>
    exact ⟨by decide, by decide⟩

/-- C4 witness: the interrupt step sequence when all per-session
resources exist and all hypotheses hold. -/
theorem c4_witness :
    ((handle_interrupt ⟨true, true, some false, some true, true, true⟩).count
        InterruptStep.sendVoiceInterrupted = 1) ∧
      handle_interrupt ⟨true, true, some false, some true, true, true⟩ =
        [InterruptStep.bumpInterruptionCount, InterruptStep.invokeCallback,
         InterruptStep.setStopFlag, InterruptStep.cancelTTSTask,
         InterruptStep.awaitTTSTask, InterruptStep.popTTSTask,
         InterruptStep.terminateFFmpeg, InterruptStep.flushTrack,
         InterruptStep.replaceTrack, InterruptStep.sendVoiceInterrupted] := by
  have h := c4_theorem ⟨true, true, some false, some true, true, true⟩
  exact ⟨h.1, by simpa using h.2 rfl rfl rfl rfl⟩

/-- `deque(maxlen).append` never leaves more than `maxlen` elements. -/
theorem dequeAppend_length_le (maxlen : Nat) (q : List Nat) (x : Nat) :
    (dequeAppend maxlen q x).length ≤ maxlen := by
  simp [dequeAppend]
  omega

/-- One scheduler step preserves the queue capacity bound. -/
theorem step_queue_length_le (cfg : QueueConfig) (s : QueueSystem)
    (a : QAction) (h : s.queue.length ≤ cfg.max_size) :
    (step cfg s a).queue.length ≤ cfg.max_size := by
  cases a with
  | spawn idx => simpa [step] using h
  | stepCheck tid =>
    rcases hg : s.tasks.get? tid with _ | ⟨idx, ph⟩
    · simpa only [step, hg] using h
    · cases ph <;> simp only [step, hg] <;> (try split) <;> simpa using h
  | wake tid =>
    rcases hg : s.tasks.get? tid with _ | ⟨idx, ph⟩
    · simpa only [step, hg] using h
    · cases ph <;> simp only [step, hg] <;> (try split) <;> simpa using h
  | stepAppend tid =>
    rcases hg : s.tasks.get? tid with _ | ⟨idx, ph⟩
    · simpa only [step, hg] using h
    · cases ph <;> simp only [step, hg] <;>
        (try simpa using h) <;>
        exact dequeAppend_length_le cfg.max_size s.queue idx
  | timeoutPut tid =>
    rcases hg : s.tasks.get? tid with _ | ⟨idx, ph⟩
    · simpa only [step, hg] using h
    · cases ph <;> simp only [step, hg] <;> (try split) <;> simpa using h
  | doGet =>
    rcases hq : s.queue with _ | ⟨x, rest⟩
    · simpa [step, hq] using h
    · have h2 : rest.length + 1 ≤ cfg.max_size := by simpa [hq] using h
      simp only [step, hq]
      simp
      omega
  | doClear => simp [step]

/-- C2, amended: for every interleaving of `put`, `get` and `clear`
operations on one `AudioChunkQueue`, the number of stored entries
never exceeds the configured capacity (`deque(maxlen=max_size)`
guarantees the bound).  The no-overwrite half of the claim fails: see
the counterexample, where a `put` released from blocking evicts an
entry that was never dequeued or cleared. -/
theorem c2_theorem (cfg : QueueConfig) (acts : List QAction) :
    (run cfg acts).queue.length ≤ cfg.max_size := by
  suffices hgen : ∀ acts (s : QueueSystem),
      s.queue.length ≤ cfg.max_size →
      (runFrom cfg s acts).queue.length ≤ cfg.max_size by
    exact hgen acts {} (by simp)
  intro acts
  induction acts with
  | nil => intro s hs; simpa [runFrom] using hs
  | cons a rest ih =>
    intro s hs
    simpa [runFrom] using ih (step cfg s a) (step_queue_length_le cfg s a hs)

set_option maxRecDepth 10000 in
/-- C2, counterexample: in `overwriteTrace` (default capacity 100),
the `put` of chunk 1 succeeded (returned `True`), chunk 1 was never
dequeued and `clear` was never called, yet chunk 1 is no longer in
the queue: the second blocked `put` woken by the single `get`
appended to the full `deque(maxlen=100)`, silently evicting it. -/
theorem c2_counterexample :
    (run {} overwriteTrace).tasks.get? 1 =
        some ⟨1, PutPhase.finished true⟩ ∧
      1 ∉ (run {} overwriteTrace).dequeued ∧
      (run {} overwriteTrace).clears = 0 ∧
      1 ∉ (run {} overwriteTrace).queue := by decide

/-- C5: a `put` that runs its capacity check while the queue holds
`max_size` entries and then times out (no `get` freed space, so the
`space_available` event stayed clear) returns `False`, enqueues
nothing (the queue is unchanged) and increments `total_dropped` by
exactly one. -/
theorem c5_theorem (cfg : QueueConfig) (s : QueueSystem) (tid idx : Nat)
    (hm : cfg.enable_metrics = true)
    (ht : s.tasks.get? tid = some ⟨idx, PutPhase.entry⟩)
    (hq : s.queue.length = cfg.max_size) :
    ((step cfg (step cfg s (QAction.stepCheck tid))
        (QAction.timeoutPut tid)).tasks.get? tid =
          some ⟨idx, PutPhase.finished false⟩) ∧
      (step cfg (step cfg s (QAction.stepCheck tid))
        (QAction.timeoutPut tid)).queue = s.queue ∧
      (step cfg (step cfg s (QAction.stepCheck tid))
          (QAction.timeoutPut tid)).metrics.total_dropped =
        s.metrics.total_dropped + 1 := by
  have hlt : tid < s.tasks.length := by
    by_contra hcon
    rw [List.get?_eq_getElem?, List.getElem?_eq_none (by omega)] at ht
    exact Option.noConfusion ht
  have hfull : cfg.max_size ≤ s.queue.length := le_of_eq hq.symm
  have hs1 : step cfg s (QAction.stepCheck tid) =
      { s with space_available := false,
               metrics := { s.metrics with backpressure_events :=
                   s.metrics.backpressure_events + 1 },
               tasks := s.tasks.set tid ⟨idx, PutPhase.waiting⟩ } := by
    simp only [step, ht]
    simp [hfull, hm]
  have hg1 : (s.tasks.set tid ⟨idx, PutPhase.waiting⟩).get? tid =
      some ⟨idx, PutPhase.waiting⟩ := by
    simp [List.get?_eq_getElem?, List.getElem?_set_self, hlt]
  rw [hs1]
  refine ⟨?_, ?_, ?_⟩
  · simp only [step, hg1]
    simp [List.set_set, List.get?_eq_getElem?, List.getElem?_set_self, hlt, hm]
  · simp only [step, hg1]
    simp [hm]
  · simp only [step, hg1]
    simp [hm]

/-- C5 witness: a full default queue (100 entries) with one pending
`put`; after the check and the timeout the `put` has returned `False`,
the queue is unchanged and exactly one drop is counted. -/
theorem c5_witness :
    fullQueueState.queue.length = ({} : QueueConfig).max_size ∧
      ((step {} (step {} fullQueueState (QAction.stepCheck 0))
          (QAction.timeoutPut 0)).tasks.get? 0 =
        some ⟨7, PutPhase.finished false⟩) ∧
      (step {} (step {} fullQueueState (QAction.stepCheck 0))
          (QAction.timeoutPut 0)).queue = fullQueueState.queue ∧
      (step {} (step {} fullQueueState (QAction.stepCheck 0))
          (QAction.timeoutPut 0)).metrics.total_dropped = 1 := by
  have h := c5_theorem {} fullQueueState 0 7 rfl rfl
    (by simp [fullQueueState])
  exact ⟨by simp [fullQueueState], h.1, h.2.1,
    by simpa [fullQueueState] using h.2.2⟩

/-- `dictGet` is `none` exactly when no entry has the key. -/
theorem dictGet_eq_none_iff (l : List (Nat × ChunkInfo)) (k : Nat) :
    dictGet l k = none ↔ ∀ p ∈ l, p.1 ≠ k := by
  induction l with
  | nil => simp [dictGet]
  | cons q rest ih =>
    obtain ⟨k', v'⟩ := q
    by_cases hk : k' = k
    · subst hk
      simp [dictGet]
    · simp [dictGet, hk, ih]

/-- A successful `dictGet` exhibits a member. -/
theorem dictGet_mem {l : List (Nat × ChunkInfo)} {i : Nat}
    {v : ChunkInfo} (h : dictGet l i = some v) : (i, v) ∈ l := by
  induction l with
  | nil => simp [dictGet] at h
  | cons q rest ih =>
    obtain ⟨k', v'⟩ := q
    by_cases hk : k' = i
    · subst hk
      simp [dictGet] at h
      simp [h]
    · simp [dictGet, hk] at h
      simp [ih h]

/-- With distinct keys, membership determines `dictGet`. -/
theorem dictGet_of_mem_nodup {l : List (Nat × ChunkInfo)} {i : Nat}
    {v : ChunkInfo} (hnd : (keys l).Nodup) (hm : (i, v) ∈ l) :
    dictGet l i = some v := by
  induction l with
  | nil => simp at hm
  | cons q rest ih =>
    obtain ⟨k', v'⟩ := q
    simp only [keys, List.map_cons, List.nodup_cons] at hnd
    rcases List.mem_cons.mp hm with heq | hmem
    · obtain ⟨h1, h2⟩ := Prod.mk.injEq .. ▸ heq
      injection heq with h1 h2
      subst h1; subst h2
      simp [dictGet]
    · have hne : k' ≠ i := by
        intro he
        exact hnd.1 (he ▸ (List.mem_map.mpr ⟨(i, v), hmem, rfl⟩))
      simp [dictGet, hne]
      exact ih hnd.2 hmem

/-- Setting a fresh key appends the binding. -/
theorem dictSet_fresh {l : List (Nat × ChunkInfo)} {k : Nat}
    (v : ChunkInfo) (h : dictGet l k = none) :
    dictSet l k v = l ++ [(k, v)] := by
  induction l with
  | nil => simp [dictSet]
  | cons q rest ih =>
    obtain ⟨k', v'⟩ := q
    by_cases hk : k' = k
    · subst hk; simp [dictGet] at h
    · simp [dictGet, hk] at h
      simp [dictSet, hk, ih h]

theorem dictGet_dictSet_ne {l : List (Nat × ChunkInfo)} {k i : Nat}
    (v : ChunkInfo) (h : k ≠ i) :
    dictGet (dictSet l k v) i = dictGet l i := by
  induction l with
  | nil => simp [dictSet, dictGet, h]
  | cons q rest ih =>
    obtain ⟨k', v'⟩ := q
    by_cases hk : k' = k
    · subst hk; simp [dictSet, dictGet, h, ih]
    · simp [dictSet, hk]
      by_cases hi : k' = i <;> simp [dictGet, hi, ih]

theorem dictGet_dictDel_ne {l : List (Nat × ChunkInfo)} {k i : Nat}
    (h : k ≠ i) : dictGet (dictDel l k) i = dictGet l i := by
  induction l with
  | nil => simp [dictDel]
  | cons q rest ih =>
    obtain ⟨k', v'⟩ := q
    by_cases hk : k' = k
    · subst hk; simp [dictDel, dictGet, h]
    · simp [dictDel, hk]
      by_cases hi : k' = i <;> simp [dictGet, hi, ih]

/-- `dictDel` is a sublist of the original list. -/
theorem dictDel_sublist (l : List (Nat × ChunkInfo)) (k : Nat) :
    List.Sublist (dictDel l k) l := by
  induction l with
  | nil => simp [dictDel]
  | cons q rest ih =>
    obtain ⟨k', v'⟩ := q
    by_cases hk : k' = k
    · subst hk
      simp [dictDel]
    · simp only [dictDel, hk, if_false, ite_false]
      exact List.Sublist.cons₂ _ ih

/-- Deleting the key of a nodup dict removes it entirely. -/
theorem dictGet_dictDel_self {l : List (Nat × ChunkInfo)} {k : Nat}
    (hnd : (keys l).Nodup) : dictGet (dictDel l k) k = none := by
  induction l with
  | nil => simp [dictDel, dictGet]
  | cons q rest ih =>
    obtain ⟨k', v'⟩ := q
    simp only [keys, List.map_cons, List.nodup_cons] at hnd
    by_cases hk : k' = k
    · subst hk
      simp [dictDel]
      rw [(dictGet_eq_none_iff rest k').mpr]
      intro p hp he
      exact hnd.1 (he ▸ (List.mem_map.mpr ⟨p, hp, rfl⟩))
    · simp [dictDel, hk, dictGet, hk, ih hnd.2]

/-- Nothing gains a key it did not have: deletion. -/
theorem dictGet_dictDel_none {l : List (Nat × ChunkInfo)} {k i : Nat}
    (h : dictGet l i = none) : dictGet (dictDel l k) i = none := by
  rw [dictGet_eq_none_iff] at h ⊢
  intro p hp
  exact h p ((dictDel_sublist l k).mem hp)

/-- Nothing gains a key it did not have: filtering. -/
theorem dictGet_filter_none {l : List (Nat × ChunkInfo)} {i : Nat}
    (p : Nat × ChunkInfo → Bool) (h : dictGet l i = none) :
    dictGet (l.filter p) i = none := by
  rw [dictGet_eq_none_iff] at h ⊢
  intro q hq
  exact h q ((List.filter_sublist l).mem hq)

/-- Membership in a `dictSet` result. -/
theorem mem_dictSet {l : List (Nat × ChunkInfo)} {k : Nat}
    {v p : _} (h : p ∈ dictSet l k v) : p = (k, v) ∨ p ∈ l := by
  induction l with
  | nil => simpa [dictSet] using h
  | cons q rest ih =>
    obtain ⟨k', v'⟩ := q
    by_cases hk : k' = k
    · subst hk
      rcases List.mem_cons.mp (by simpa [dictSet] using h) with h1 | h1
      · exact Or.inl h1
      · exact Or.inr (List.mem_cons_of_mem _ h1)
    · rcases List.mem_cons.mp (by simpa [dictSet, hk] using h) with h1 | h1
      · exact Or.inr (h1 ▸ List.mem_cons_self _ _)
      · rcases ih h1 with h2 | h2
        · exact Or.inl h2
        · exact Or.inr (List.mem_cons_of_mem _ h2)

/-- Membership in the key list of a `dictSet`. -/
theorem mem_keys_dictSet {l : List (Nat × ChunkInfo)} {k i : Nat}
    {v : ChunkInfo} (h : i ∈ keys (dictSet l k v)) :
    i = k ∨ i ∈ keys l := by
  simp only [keys] at h ⊢
  rcases List.mem_map.mp h with ⟨p, hp, hpf⟩
  rcases mem_dictSet hp with h1 | h1
  · exact Or.inl (by rw [← hpf, h1])
  · exact Or.inr (List.mem_map.mpr ⟨p, h1, hpf⟩)

/-- `dictSet` preserves distinctness of keys. -/
theorem keys_dictSet_nodup {l : List (Nat × ChunkInfo)} {k : Nat}
    (v : ChunkInfo) (hnd : (keys l).Nodup) :
    (keys (dictSet l k v)).Nodup := by
  induction l with
  | nil => simp [dictSet, keys]
  | cons q rest ih =>
    obtain ⟨k', v'⟩ := q
    simp only [keys, List.map_cons, List.nodup_cons] at hnd
    by_cases hk : k' = k
    · subst hk
      have hset : dictSet ((k', v') :: rest) k' v = (k', v) :: rest := by
        simp [dictSet]
      rw [hset]
      simp only [keys, List.map_cons, List.nodup_cons]
      exact ⟨hnd.1, hnd.2⟩
    · have hset : dictSet ((k', v') :: rest) k v =
          (k', v') :: dictSet rest k v := by
        simp [dictSet, hk]
      rw [hset]
      simp only [keys, List.map_cons, List.nodup_cons]
      refine ⟨fun hmem => ?_, ih hnd.2⟩
      rcases mem_keys_dictSet hmem with h | h
      · exact hk h
      · exact hnd.1 h

/-- `dictDel` preserves distinctness of keys. -/
theorem keys_dictDel_nodup {l : List (Nat × ChunkInfo)} (k : Nat)
    (hnd : (keys l).Nodup) : (keys (dictDel l k)).Nodup :=
  hnd.sublist ((dictDel_sublist l k).map Prod.fst)

/-- Filtering preserves distinctness of keys. -/
theorem keys_filter_nodup {l : List (Nat × ChunkInfo)}
    (p : Nat × ChunkInfo → Bool) (hnd : (keys l).Nodup) :
    (keys (l.filter p)).Nodup :=
  hnd.sublist ((List.filter_sublist l).map Prod.fst)

/-- `dictDel` of a present key shortens the list by one. -/
theorem dictDel_length_mem {l : List (Nat × ChunkInfo)} {k : Nat}
    (h : k ∈ keys l) : (dictDel l k).length + 1 = l.length := by
  induction l with
  | nil => simp [keys] at h
  | cons q rest ih =>
    obtain ⟨k', v'⟩ := q
    by_cases hk : k' = k
    · subst hk; simp [dictDel]
    · simp [keys, hk] at h
      rcases h with h | h
      · exact absurd h.symm hk
      · simp [dictDel, hk]
        exact ih (List.mem_map.mpr (by simpa using h))

/-- Setting a fresh key lengthens the list by one. -/
theorem dictSet_length_fresh {l : List (Nat × ChunkInfo)} {k : Nat}
    (v : ChunkInfo) (h : dictGet l k = none) :
    (dictSet l k v).length = l.length + 1 := by
  rw [dictSet_fresh v h]
  simp

/-- `min(..., default=None)` returns a member. -/
theorem minNat_mem : ∀ (l : List Nat) (a m : Nat),
    minNat (some a) l = some m → m = a ∨ m ∈ l := by
  intro l
  induction l with
  | nil => intro a m h; simp [minNat] at h; simp [h]
  | cons x rest ih =>
    intro a m h
    simp only [minNat] at h
    rcases ih (min a x) m h with h1 | h1
    · rcases Nat.le_total a x with hle | hle
      · simp [Nat.min_eq_left hle] at h1; simp [h1]
      · simp [Nat.min_eq_right hle] at h1; simp [h1]
    · simp [h1]

theorem minUnacked_mem {l : List (Nat × ChunkInfo)} {m : Nat}
    (h : minUnacked l = some m) : m ∈ unackedKeys l := by
  unfold minUnacked at h
  cases hl : unackedKeys l with
  | nil => rw [hl] at h; simp [minNat] at h
  | cons x rest =>
    rw [hl] at h
    simp only [minNat] at h
    rcases minNat_mem rest x m h with h1 | h1 <;> simp [h1]

/-- `mark_sent` below capacity just inserts the new record. -/
theorem mark_sent_chunks_small (cfg : TrackerConfig) (s : TrackerState)
    (idx size : Nat) (now : Rat)
    (hlen : s.sent_chunks.length < cfg.max_tracked_chunks) :
    (mark_sent cfg s idx size now).sent_chunks =
      dictSet s.sent_chunks idx ⟨idx, now, size, false, none⟩ := by
  simp [mark_sent, Nat.not_le.mpr hlen]

/-- The store after a first acknowledgment. -/
theorem mark_ack_chunks (s : TrackerState) (i : Nat) (now : Rat)
    (info : ChunkInfo) (h : dictGet s.sent_chunks i = some info)
    (ha : info.acked = false) :
    (mark_acknowledged s i now).2.sent_chunks =
      dictSet s.sent_chunks i
        { info with acked := true, ack_time := some now } := by
  simp [mark_acknowledged, h, ha]

/-- A first acknowledgment of a tracked, unacknowledged chunk returns
`True` and bumps the acknowledged counter by exactly one. -/
theorem mark_ack_first (s : TrackerState) (i : Nat) (now : Rat)
    (info : ChunkInfo) (h : dictGet s.sent_chunks i = some info)
    (ha : info.acked = false) :
    (mark_acknowledged s i now).1 = true ∧
      (mark_acknowledged s i now).2.total_acked = s.total_acked + 1 := by
  constructor <;> simp [mark_acknowledged, h, ha]

/-- A repeated acknowledgment returns `True` and changes nothing. -/
theorem mark_ack_dup (s : TrackerState) (i : Nat) (now : Rat)
    (info : ChunkInfo) (h : dictGet s.sent_chunks i = some info)
    (ha : info.acked = true) :
    mark_acknowledged s i now = (true, s) := by
  simp [mark_acknowledged, h, ha]

/-- An acknowledgment of an untracked index returns `False` and
changes nothing. -/
theorem mark_ack_unknown (s : TrackerState) (i : Nat) (now : Rat)
    (h : dictGet s.sent_chunks i = none) :
    mark_acknowledged s i now = (false, s) := by
  simp [mark_acknowledged, h]

/-- Splitting a run of tracker calls. -/
theorem runOps_append (cfg : TrackerConfig) (l1 l2 : List TrackerOp) :
    runOps cfg (l1 ++ l2) = runOpsFrom cfg (runOps cfg l1) l2 := by
  simp [runOps, runOpsFrom, List.foldl_append]

theorem ackedPairs_succ (n : Nat) :
    ackedPairs (n + 1) =
      ackedPairs n ++ [TrackerOp.msent n 0 0, TrackerOp.mack n 0] := by
  simp [ackedPairs, List.range_succ]

/-- Keys of the fully acknowledged range store are below `n`. -/
theorem dictGet_rangeAcked_none {n k : Nat} (h : n ≤ k) :
    dictGet ((List.range n).map ackedEntry) k = none := by
  rw [dictGet_eq_none_iff]
  intro p hp
  rcases List.mem_map.mp hp with ⟨i, hi, rfl⟩
  have : i < n := List.mem_range.mp hi
  simp only [ackedEntry]
  omega

/-- Appending an entry with a fresh key commutes with `dictGet`. -/
theorem dictGet_append_of_none {l l2 : List (Nat × ChunkInfo)} {k : Nat}
    (h : dictGet l k = none) : dictGet (l ++ l2) k = dictGet l2 k := by
  induction l with
  | nil => simp
  | cons q rest ih =>
    obtain ⟨k', v'⟩ := q
    by_cases hk : k' = k
    · subst hk; simp [dictGet] at h
    · simp [dictGet, hk] at h ⊢
      exact ih h

/-- Setting a key that lives in the appended tail. -/
theorem dictSet_append_of_none {l l2 : List (Nat × ChunkInfo)} {k : Nat}
    (v : ChunkInfo) (h : dictGet l k = none) :
    dictSet (l ++ l2) k v = l ++ dictSet l2 k v := by
  induction l with
  | nil => simp
  | cons q rest ih =>
    obtain ⟨k', v'⟩ := q
    by_cases hk : k' = k
    · subst hk; simp [dictGet] at h
    · simp [dictGet, hk] at h
      simp [dictSet, hk, ih h]

/-- After `n ≤ 1000` send/acknowledge pairs the default tracker holds
exactly the `n` acknowledged records `0..n-1`, in insertion order. -/
theorem runOps_ackedPairs (n : Nat) (hn : n ≤ 1000) :
    (runOps {} (ackedPairs n)).sent_chunks =
      (List.range n).map ackedEntry := by
  induction n with
  | zero => rfl
  | succ m ih =>
    have hm : m ≤ 1000 := by omega
    have hml : m < 1000 := by omega
    rw [ackedPairs_succ, runOps_append]
    have hchunks := ih hm
    set s := runOps {} (ackedPairs m) with hs
    have hfresh : dictGet s.sent_chunks m = none := by
      rw [hchunks]
      exact dictGet_rangeAcked_none (le_refl m)
    have hsent : (mark_sent {} s m 0 0).sent_chunks =
        (List.range m).map ackedEntry ++ [(m, ⟨m, 0, 0, false, none⟩)] := by
      rw [mark_sent_chunks_small {} s m 0 0
        (by rw [hchunks]; simpa using hml)]
      rw [hchunks] at hfresh ⊢
      rw [dictSet_fresh _ hfresh]
    have hget : dictGet (mark_sent {} s m 0 0).sent_chunks m =
        some ⟨m, 0, 0, false, none⟩ := by
      rw [hsent]
      rw [dictGet_append_of_none (by
        rw [hchunks] at hfresh; exact hfresh)]
      simp [dictGet]
    show (mark_acknowledged (mark_sent {} s m 0 0) m 0).2.sent_chunks = _
    rw [mark_ack_chunks _ _ _ _ hget rfl, hsent,
      dictSet_append_of_none _ (by rw [hchunks] at hfresh; exact hfresh)]
    simp [dictSet, List.range_succ, ackedEntry]

/-- `mark_sent` at (or beyond) capacity with every record acknowledged
evicts nothing and grows the store. -/
theorem mark_sent_all_acked (cfg : TrackerConfig) (s : TrackerState)
    (idx size : Nat) (now : Rat)
    (hfull : cfg.max_tracked_chunks ≤ s.sent_chunks.length)
    (hacked : ∀ p ∈ s.sent_chunks, p.2.acked = true)
    (hfresh : dictGet s.sent_chunks idx = none) :
    (mark_sent cfg s idx size now).sent_chunks.length =
      s.sent_chunks.length + 1 := by
  have hnone : minUnacked s.sent_chunks = none := by
    have : unackedKeys s.sent_chunks = [] := by
      unfold unackedKeys
      rw [List.filter_eq_nil_iff.mpr (by
        intro p hp
        simp [hacked p hp])]
      rfl
    simp [minUnacked, this, minNat]
  simp only [mark_sent, if_pos hfull, hnone]
  exact dictSet_length_fresh _ hfresh

/-- C3, counterexample: at the default configuration
(`max_tracked_chunks = 1000`) the call sequence that sends and
acknowledges chunks 0..999 and then sends chunk 1000 leaves 1001
tracked records: the eviction scan only considers unacknowledged
records and finds none, so the store exceeds its bound. -/
theorem c3_counterexample :
    ({} : TrackerConfig).max_tracked_chunks = 1000 ∧
      (runOps {} overflowOps).sent_chunks.length = 1001 := by
  refine ⟨rfl, ?_⟩
  have h1000 := runOps_ackedPairs 1000 (le_refl 1000)
  rw [overflowOps, runOps_append]
  show (mark_sent {} (runOps {} (ackedPairs 1000)) 1000 0 0).sent_chunks.length = 1001
  rw [mark_sent_all_acked {} _ 1000 0 0
    (by rw [h1000]; simp)
    (by
      rw [h1000]
      intro p hp
      rcases List.mem_map.mp hp with ⟨i, _, rfl⟩
      rfl)
    (by rw [h1000]; exact dictGet_rangeAcked_none (by omega))]
  rw [h1000]
  simp

/-- C3, amended: when `mark_sent` of a fresh chunk index arrives while
the store holds exactly `max_tracked_chunks` records (keys distinct),
then: if some record is unacknowledged, the one with the smallest
chunk index among the unacknowledged (`min(...)` in the source) is
evicted, the missing counter increments by exactly one, and the store
still holds exactly `max_tracked_chunks` records; if every record is
acknowledged, nothing is evicted and the store grows to
`max_tracked_chunks + 1` records with the missing counter unchanged.
(The original claim fails in the all-acknowledged case, and the code
evicts the smallest index, which is the oldest only when indices are
assigned in increasing order.) -/
theorem c3_theorem (cfg : TrackerConfig) (s : TrackerState)
    (idx size : Nat) (now : Rat)
    (hnd : (keys s.sent_chunks).Nodup)
    (hlen : s.sent_chunks.length = cfg.max_tracked_chunks)
    (hfresh : dictGet s.sent_chunks idx = none) :
    (∀ k, minUnacked s.sent_chunks = some k →
       (mark_sent cfg s idx size now).sent_chunks.length =
           cfg.max_tracked_chunks ∧
         (mark_sent cfg s idx size now).total_missing =
           s.total_missing + 1 ∧
         dictGet (mark_sent cfg s idx size now).sent_chunks k = none) ∧
      (minUnacked s.sent_chunks = none →
        (mark_sent cfg s idx size now).sent_chunks.length =
            cfg.max_tracked_chunks + 1 ∧
          (mark_sent cfg s idx size now).total_missing =
            s.total_missing) := by
  have hfull : cfg.max_tracked_chunks ≤ s.sent_chunks.length :=
    le_of_eq hlen.symm
  constructor
  · intro k hmin
    have hkmem : k ∈ unackedKeys s.sent_chunks := minUnacked_mem hmin
    have hkey : k ∈ keys s.sent_chunks := by
      unfold unackedKeys at hkmem
      rcases List.mem_map.mp hkmem with ⟨p, hp, hpf⟩
      exact List.mem_map.mpr ⟨p, (List.filter_sublist _).mem hp, hpf⟩
    have hkne : k ≠ idx := by
      intro he
      rw [dictGet_eq_none_iff] at hfresh
      rcases List.mem_map.mp hkey with ⟨p, hp, hpf⟩
      exact hfresh p hp (by rw [hpf, he])
    have hchunks : (mark_sent cfg s idx size now).sent_chunks =
        dictSet (dictDel s.sent_chunks k) idx ⟨idx, now, size, false, none⟩ := by
      simp [mark_sent, hfull, hmin]
    have hmiss : (mark_sent cfg s idx size now).total_missing =
        s.total_missing + 1 := by
      simp [mark_sent, hfull, hmin]
    have hdelfresh : dictGet (dictDel s.sent_chunks k) idx = none :=
      dictGet_dictDel_none hfresh
    refine ⟨?_, hmiss, ?_⟩
    · rw [hchunks, dictSet_length_fresh _ hdelfresh]
      have := dictDel_length_mem hkey
      omega
    · rw [hchunks, dictGet_dictSet_ne _ hkne.symm]
      exact dictGet_dictDel_self hnd
  · intro hmin
    have hchunks : (mark_sent cfg s idx size now).sent_chunks =
        dictSet s.sent_chunks idx ⟨idx, now, size, false, none⟩ := by
      simp [mark_sent, hfull, hmin]
    refine ⟨?_, by simp [mark_sent, hfull, hmin]⟩
    rw [hchunks, dictSet_length_fresh _ hfresh, hlen]

/-- C3 witness: a tracker configured with capacity 2 holding an
unacknowledged chunk 0 and an acknowledged chunk 1; a `mark_sent` of
fresh index 7 evicts chunk 0, counts one missing and keeps the store
at 2 records. -/
theorem c3_witness :
    (keys twoTrackedState.sent_chunks).Nodup ∧
      twoTrackedState.sent_chunks.length =
        (TrackerConfig.mk 5 2).max_tracked_chunks ∧
      dictGet twoTrackedState.sent_chunks 7 = none ∧
      minUnacked twoTrackedState.sent_chunks = some 0 ∧
      ((mark_sent (TrackerConfig.mk 5 2) twoTrackedState 7 4 3).sent_chunks.length =
          (TrackerConfig.mk 5 2).max_tracked_chunks ∧
        (mark_sent (TrackerConfig.mk 5 2) twoTrackedState 7 4 3).total_missing =
          twoTrackedState.total_missing + 1 ∧
        dictGet (mark_sent (TrackerConfig.mk 5 2) twoTrackedState 7 4 3).sent_chunks 0 =
          none) := by
  refine ⟨by decide, by decide, by decide, by decide, ?_⟩
  exact (c3_theorem (TrackerConfig.mk 5 2) twoTrackedState 7 4 3
    (by decide) (by decide) (by decide)).1 0 (by decide)

/-- The two possible shapes of the store after `mark_sent`. -/
theorem mark_sent_chunks_cases (cfg : TrackerConfig) (s : TrackerState)
    (idx size : Nat) (now : Rat) :
    (mark_sent cfg s idx size now).sent_chunks =
        dictSet s.sent_chunks idx ⟨idx, now, size, false, none⟩ ∨
      ∃ o, minUnacked s.sent_chunks = some o ∧
        (mark_sent cfg s idx size now).sent_chunks =
          dictSet (dictDel s.sent_chunks o) idx
            ⟨idx, now, size, false, none⟩ := by
  by_cases hfull : cfg.max_tracked_chunks ≤ s.sent_chunks.length
  · rcases hmin : minUnacked s.sent_chunks with _ | o
    · left; simp [mark_sent, hfull, hmin]
    · right; exact ⟨o, rfl, by simp [mark_sent, hfull, hmin]⟩
  · left; simp [mark_sent, hfull]

/-- An op that is not `mark_sent(i, ...)` cannot create a record for
index `i`. -/
theorem applyOp_get_none (cfg : TrackerConfig) (s : TrackerState)
    (op : TrackerOp) (i : Nat) (hop : sentIndex op ≠ some i)
    (h : dictGet s.sent_chunks i = none) :
    dictGet (applyOp cfg s op).sent_chunks i = none := by
  cases op with
  | msent j size now =>
    have hji : j ≠ i := fun he => hop (by simp [sentIndex, he])
    show dictGet (mark_sent cfg s j size now).sent_chunks i = none
    rcases mark_sent_chunks_cases cfg s j size now with hc | ⟨o, _, hc⟩
    · rw [hc, dictGet_dictSet_ne _ hji]; exact h
    · rw [hc, dictGet_dictSet_ne _ hji]
      exact dictGet_dictDel_none h
  | mack j now =>
    show dictGet (mark_acknowledged s j now).2.sent_chunks i = none
    rcases hg : dictGet s.sent_chunks j with _ | info0
    · rw [mark_ack_unknown _ _ _ hg]; exact h
    · by_cases hak : info0.acked
      · rw [mark_ack_dup _ _ _ _ hg hak]; exact h
      · have hji : j ≠ i := by
          intro he; rw [he, h] at hg; exact Option.noConfusion hg
        rw [mark_ack_chunks _ _ _ _ hg (by simpa using hak),
          dictGet_dictSet_ne _ hji]
        exact h
  | mcleanup now =>
    show dictGet ((cleanup_old_chunks s now).sent_chunks) i = none
    exact dictGet_filter_none _ h

/-- Not sending index `i` keeps it untracked along a run. -/
theorem runOpsFrom_get_none (cfg : TrackerConfig) (i : Nat) :
    ∀ (ops : List TrackerOp) (s : TrackerState),
      (∀ op ∈ ops, sentIndex op ≠ some i) →
      dictGet s.sent_chunks i = none →
      dictGet (runOpsFrom cfg s ops).sent_chunks i = none := by
  intro ops
  induction ops with
  | nil => intro s _ hs; exact hs
  | cons op rest ih =>
    intro s hops hs
    exact ih (applyOp cfg s op)
      (fun o ho => hops o (List.mem_cons_of_mem _ ho))
      (applyOp_get_none cfg s op i (hops op (List.mem_cons_self _ _)) hs)

/-- C6: on the tracker state reached by any call sequence, the first
`mark_acknowledged` of a tracked, not-yet-acknowledged index returns
`True` and increments the acknowledged counter by exactly one; a
repeated `mark_acknowledged` of an acknowledged index returns `True`
and changes nothing; and a `mark_acknowledged` of an index never
marked sent returns `False` and changes nothing. -/
theorem c6_theorem (cfg : TrackerConfig) (ops : List TrackerOp)
    (i : Nat) (now : Rat) :
    (∀ info, dictGet (runOps cfg ops).sent_chunks i = some info →
       info.acked = false →
       (mark_acknowledged (runOps cfg ops) i now).1 = true ∧
         (mark_acknowledged (runOps cfg ops) i now).2.total_acked =
           (runOps cfg ops).total_acked + 1) ∧
      (∀ info, dictGet (runOps cfg ops).sent_chunks i = some info →
        info.acked = true →
        mark_acknowledged (runOps cfg ops) i now =
          (true, runOps cfg ops)) ∧
      ((∀ op ∈ ops, sentIndex op ≠ some i) →
        mark_acknowledged (runOps cfg ops) i now =
          (false, runOps cfg ops)) := by
  refine ⟨fun info h ha => mark_ack_first _ _ _ _ h ha,
    fun info h ha => mark_ack_dup _ _ _ _ h ha,
    fun hops => mark_ack_unknown _ _ _ ?_⟩
  exact runOpsFrom_get_none cfg i ops {} hops rfl

/-- C6 witness: after sending chunk 5, its first acknowledgment
returns `True` and bumps the counter to one; after acknowledging it,
a repeat returns `True` and changes nothing; acknowledging the never
sent index 7 returns `False` and changes nothing. -/
theorem c6_witness :
    (dictGet (runOps {} [TrackerOp.msent 5 3 0]).sent_chunks 5 =
        some ⟨5, 0, 3, false, none⟩) ∧
      ((mark_acknowledged (runOps {} [TrackerOp.msent 5 3 0]) 5 2).1 =
          true ∧
        (mark_acknowledged (runOps {} [TrackerOp.msent 5 3 0])
            5 2).2.total_acked =
          (runOps {} [TrackerOp.msent 5 3 0]).total_acked + 1) ∧
      (mark_acknowledged
          (runOps {} [TrackerOp.msent 5 3 0, TrackerOp.mack 5 1]) 5 2 =
        (true, runOps {} [TrackerOp.msent 5 3 0, TrackerOp.mack 5 1])) ∧
      (mark_acknowledged (runOps {} [TrackerOp.msent 5 3 0]) 7 2 =
        (false, runOps {} [TrackerOp.msent 5 3 0])) := by
  refine ⟨by decide,
    (c6_theorem {} [TrackerOp.msent 5 3 0] 5 2).1
      ⟨5, 0, 3, false, none⟩ (by decide) rfl,
    (c6_theorem {} [TrackerOp.msent 5 3 0, TrackerOp.mack 5 1] 5 2).2.1
      ⟨5, 0, 3, true, some 1⟩ (by decide) rfl,
    (c6_theorem {} [TrackerOp.msent 5 3 0] 7 2).2.2 (by decide)⟩

theorem mem_insertSorted (x a : Nat) (l : List Nat) :
    x ∈ insertSorted a l ↔ x = a ∨ x ∈ l := by
  induction l with
  | nil => simp [insertSorted]
  | cons y rest ih =>
    by_cases hle : a ≤ y
    · simp [insertSorted, hle]
    · simp [insertSorted, hle, ih]
      tauto

theorem mem_sortNat (x : Nat) (l : List Nat) :
    x ∈ sortNat l ↔ x ∈ l := by
  induction l with
  | nil => simp [sortNat]
  | cons y rest ih =>
    show x ∈ insertSorted y (sortNat rest) ↔ _
    rw [mem_insertSorted, ih]
    simp

/-- A tracked, unacknowledged record older than the ack timeout shows
up in `get_missing_chunks`. -/
theorem get_missing_mem (cfg : TrackerConfig) (s : TrackerState)
    (i : Nat) (now : Rat) (info : ChunkInfo)
    (h : dictGet s.sent_chunks i = some info) (ha : info.acked = false)
    (hold : cfg.ack_timeout < now - info.sent_time) :
    i ∈ get_missing_chunks cfg s now := by
  unfold get_missing_chunks
  rw [mem_sortNat]
  refine List.mem_map.mpr ⟨(i, info), ?_, rfl⟩
  refine List.mem_filter.mpr ⟨dictGet_mem h, ?_⟩
  simp [ha, hold]

/-- If every record for `i` (there is at most one, keys being
distinct) is acknowledged, `i` is not reported missing. -/
theorem not_mem_get_missing (cfg : TrackerConfig) (s : TrackerState)
    (i : Nat) (now : Rat) (hnd : (keys s.sent_chunks).Nodup)
    (hack : ∀ info, dictGet s.sent_chunks i = some info →
      info.acked = true) :
    i ∉ get_missing_chunks cfg s now := by
  intro hmem
  unfold get_missing_chunks at hmem
  rw [mem_sortNat] at hmem
  rcases List.mem_map.mp hmem with ⟨p, hp, hpf⟩
  obtain ⟨pi, pv⟩ := p
  obtain rfl : pi = i := hpf
  have hfp := List.mem_filter.mp hp
  have hacked := hack pv (dictGet_of_mem_nodup hnd hfp.1)
  have := hfp.2
  rw [hacked] at this
  simp at this

/-- An op that is not `mark_sent(i, ...)` keeps the record for `i`
acknowledged (or absent), and keeps the keys distinct. -/
theorem applyOp_acked_inv (cfg : TrackerConfig) (s : TrackerState)
    (op : TrackerOp) (i : Nat) (hop : sentIndex op ≠ some i)
    (hnd : (keys s.sent_chunks).Nodup)
    (hack : ∀ info, dictGet s.sent_chunks i = some info →
      info.acked = true) :
    (keys (applyOp cfg s op).sent_chunks).Nodup ∧
      ∀ info, dictGet (applyOp cfg s op).sent_chunks i = some info →
        info.acked = true := by
  cases op with
  | msent j size now =>
    have hji : j ≠ i := fun he => hop (by simp [sentIndex, he])
    simp only [applyOp]
    rcases mark_sent_chunks_cases cfg s j size now with hc | ⟨o, _, hc⟩
    · rw [hc]
      refine ⟨keys_dictSet_nodup _ hnd, fun info hinfo => ?_⟩
      rw [dictGet_dictSet_ne _ hji] at hinfo
      exact hack info hinfo
    · rw [hc]
      refine ⟨keys_dictSet_nodup _ (keys_dictDel_nodup _ hnd),
        fun info hinfo => ?_⟩
      rw [dictGet_dictSet_ne _ hji] at hinfo
      by_cases hoi : o = i
      · subst hoi
        rw [dictGet_dictDel_self hnd] at hinfo
        exact Option.noConfusion hinfo
      · rw [dictGet_dictDel_ne hoi] at hinfo
        exact hack info hinfo
  | mack j now =>
    simp only [applyOp]
    rcases hg : dictGet s.sent_chunks j with _ | info0
    · rw [mark_ack_unknown _ _ _ hg]
      exact ⟨hnd, hack⟩
    · by_cases hak : info0.acked
      · rw [mark_ack_dup _ _ _ _ hg hak]
        exact ⟨hnd, hack⟩
      · by_cases hji : j = i
        · subst hji
          exact absurd (hack info0 hg) (by simpa using hak)
        · have hc := mark_ack_chunks s j now info0 hg (by simpa using hak)
          rw [hc]
          refine ⟨keys_dictSet_nodup _ hnd, fun info hinfo => ?_⟩
          rw [dictGet_dictSet_ne _ hji] at hinfo
          exact hack info hinfo
  | mcleanup now =>
    simp only [applyOp]
    refine ⟨keys_filter_nodup _ hnd, fun info hinfo => ?_⟩
    have hm := dictGet_mem hinfo
    exact hack info
      (dictGet_of_mem_nodup hnd ((List.filter_sublist _).mem hm))

/-- Acknowledged-ness of a chunk survives any further calls that do
not re-send its index. -/
theorem runOpsFrom_acked_inv (cfg : TrackerConfig) (i : Nat) :
    ∀ (ops : List TrackerOp) (s : TrackerState),
      (∀ op ∈ ops, sentIndex op ≠ some i) →
      (keys s.sent_chunks).Nodup →
      (∀ info, dictGet s.sent_chunks i = some info →
        info.acked = true) →
      (keys (runOpsFrom cfg s ops).sent_chunks).Nodup ∧
        ∀ info, dictGet (runOpsFrom cfg s ops).sent_chunks i =
          some info → info.acked = true := by
  intro ops
  induction ops with
  | nil => intro s _ hnd hack; exact ⟨hnd, hack⟩
  | cons op rest ih =>
    intro s hops hnd hack
    have h1 := applyOp_acked_inv cfg s op i
      (hops op (List.mem_cons_self _ _)) hnd hack
    exact ih (applyOp cfg s op)
      (fun o ho => hops o (List.mem_cons_of_mem _ ho)) h1.1 h1.2

/-- C7: a tracked chunk that is unacknowledged and older than
`ack_timeout` appears in `get_missing_chunks()`; once a chunk is
acknowledged it never appears in `get_missing_chunks()` again, under
any further `mark_sent` / `mark_acknowledged` / cleanup calls that do
not re-send its index. -/
theorem c7_theorem (cfg : TrackerConfig) (s : TrackerState) (i : Nat) :
    (∀ info now, dictGet s.sent_chunks i = some info →
       info.acked = false → cfg.ack_timeout < now - info.sent_time →
       i ∈ get_missing_chunks cfg s now) ∧
      ((keys s.sent_chunks).Nodup →
       ∀ info, dictGet s.sent_chunks i = some info →
       info.acked = true →
       ∀ ops, (∀ op ∈ ops, sentIndex op ≠ some i) →
       ∀ now, i ∉ get_missing_chunks cfg (runOpsFrom cfg s ops) now) := by
  constructor
  · intro info now h ha hold
    exact get_missing_mem cfg s i now info h ha hold
  · intro hnd info h ha ops hops now
    have hinv := runOpsFrom_acked_inv cfg i ops s hops hnd
      (fun info' h' => by
        rw [h] at h'
        injection h' with he
        rw [← he]
        exact ha)
    exact not_mem_get_missing cfg _ i now hinv.1 hinv.2

/-- C7 witness: in the two-chunk tracker, the unacknowledged chunk 0
(sent at time 0) is reported missing at time 10 under the default 5s
timeout; the acknowledged chunk 1 is not reported missing at time 30
after a further unrelated `mark_sent`. -/
theorem c7_witness :
    (dictGet twoTrackedState.sent_chunks 0 =
        some ⟨0, 0, 4, false, none⟩) ∧
      0 ∈ get_missing_chunks {} twoTrackedState 10 ∧
      (keys twoTrackedState.sent_chunks).Nodup ∧
      (dictGet twoTrackedState.sent_chunks 1 =
        some ⟨1, 0, 4, true, some 1⟩) ∧
      1 ∉ get_missing_chunks {}
        (runOpsFrom {} twoTrackedState [TrackerOp.msent 9 2 20]) 30 := by
  refine ⟨by decide, ?_, by decide, by decide, ?_⟩
  · exact (c7_theorem {} twoTrackedState 0).1 ⟨0, 0, 4, false, none⟩ 10
      (by decide) rfl (by norm_num)
  · exact (c7_theorem {} twoTrackedState 1).2 (by decide)
      ⟨1, 0, 4, true, some 1⟩ (by decide) rfl
      [TrackerOp.msent 9 2 20] (by decide) 30
